import Mathlib

/-!
Verification of the `core::ringbuf` circular buffer and its random-access
iterator (files `src/ringbuf/ringbuf.hpp` and `src/ringbuf/iterator.hpp`).

The C++ code is shallowly embedded: the fixed-size `std::array<T, Capacity>`
storage becomes a `List T` of length `N` (the template parameter `Capacity`
is passed explicitly as `N`), `size_t` cursors become `Nat`, `ssize_t`
quantities become `Int`, and `std::expected` error results become an
`Option Err` (resp. `Except Err T`) component of the returned pair.  Every
member function is translated to a function that returns the full post-call
object state together with its result, so that the error paths' effect on
the state is expressible.  `std::div` is truncated division, which is
exactly `Int.tdiv` / `Int.tmod`.
-/

namespace RingBuf

/-- The two error kinds of `core::ringbuf::Error` (`error::Full`, `error::Empty`). -/
inductive Err where
  | Full : Err
  | Empty : Err
deriving DecidableEq

/-- `RingBuffer<T, Capacity>`: storage array, write cursor, read cursor, full flag.
The capacity `N` is passed to each operation (it is a template parameter in the
source); well-formed states have `buffer.length = N`. -/
structure RingBuffer (T : Type) where
  buffer : List T
  write_ptr : Nat
  read_ptr : Nat
  is_full : Bool
deriving DecidableEq

/-- A default-constructed `RingBuffer<T, Capacity>`: value-initialized storage,
both cursors 0, not full. -/
def initBuf (T : Type) [Inhabited T] (N : Nat) : RingBuffer T :=
  ⟨List.replicate N default, 0, 0, false⟩

/-- `RingBuffer::empty`: `write == read && !is_full`. -/
def emptyB (s : RingBuffer T) : Bool :=
  s.write_ptr == s.read_ptr && !s.is_full

/-- `RingBuffer::full`: returns `is_full`. -/
def fullB (s : RingBuffer T) : Bool :=
  s.is_full

/-- `RingBuffer::size`. -/
def sizeB (N : Nat) (s : RingBuffer T) : Nat :=
  if s.is_full then N
  else if s.write_ptr ≥ s.read_ptr then s.write_ptr - s.read_ptr
  else s.write_ptr + (N - s.read_ptr)

/-- `RingBuffer::free`. -/
def freeB (N : Nat) (s : RingBuffer T) : Nat :=
  if s.is_full then 0
  else if s.write_ptr ≥ s.read_ptr then (N - s.write_ptr) + s.read_ptr
  else s.read_ptr - s.write_ptr

/-- `RingBuffer::capacity`: returns the template parameter. -/
def capacityB (N : Nat) (_ : RingBuffer T) : Nat :=
  N

/-- `RingBuffer::clear`. -/
def clearB (s : RingBuffer T) : RingBuffer T :=
  { s with write_ptr := 0, read_ptr := 0, is_full := false }

/-- `RingBuffer::push`.  Returns the post-call state and the result
(`none` = success, `some e` = `std::unexpected{e}`). -/
def push (N : Nat) (s : RingBuffer T) (value : T) : RingBuffer T × Option Err :=
  if s.is_full then
    (s, some .Full)
  else
    -- _buffer[_write_ptr++] = value; _write_ptr %= Capacity;
    let s := { s with
                buffer := s.buffer.set s.write_ptr value,
                write_ptr := (s.write_ptr + 1) % N }
    let s := if s.write_ptr == s.read_ptr then { s with is_full := true } else s
    (s, none)

/-- `RingBuffer::push_unchecked`: same body as `push` without the full check. -/
def push_unchecked (N : Nat) (s : RingBuffer T) (value : T) : RingBuffer T :=
  let s := { s with
              buffer := s.buffer.set s.write_ptr value,
              write_ptr := (s.write_ptr + 1) % N }
  if s.write_ptr == s.read_ptr then { s with is_full := true } else s

/-- `std::copy(src.begin(), src.end(), dst.begin() + i)`: overwrite `dst`
with `src` starting from position `i`. -/
def copyInto (dst : List T) (i : Nat) : List T → List T
  | [] => dst
  | x :: xs => copyInto (dst.set i x) (i + 1) xs

/-- `std::span::last(k)`: the last `k` elements. -/
def lastN (l : List T) (k : Nat) : List T :=
  l.drop (l.length - k)

/-- `RingBuffer::push_buffer`.  The two nested error returns of the source both
produce `Error::Full`, so they are modelled as the single error result. -/
def push_buffer (N : Nat) (s : RingBuffer T) (items : List T) : RingBuffer T × Option Err :=
  if items.length > freeB N s then
    (s, some .Full)
  else
    let space_until_wrap := N - s.write_ptr
    let buf :=
      if items.length > space_until_wrap then
        -- chunk1 = items.first(space_until_wrap), copied at _write_ptr;
        -- chunk2 = items.last(size - space_until_wrap), copied at 0.
        copyInto (copyInto s.buffer s.write_ptr (items.take space_until_wrap))
          0 (items.drop space_until_wrap)
      else
        copyInto s.buffer s.write_ptr items
    let s := { s with buffer := buf, write_ptr := (s.write_ptr + items.length) % N }
    let s := if s.write_ptr == s.read_ptr then { s with is_full := true } else s
    (s, none)

/-- `RingBuffer::pop`.  Returns the post-call state and the result. -/
def pop [Inhabited T] (N : Nat) (s : RingBuffer T) : RingBuffer T × Except Err T :=
  if emptyB s then
    (s, .error .Empty)
  else
    let value := s.buffer.getD s.read_ptr default
    ({ s with read_ptr := (s.read_ptr + 1) % N, is_full := false }, .ok value)

/-- `RingBuffer::pop_unchecked`: same body without the emptiness check. -/
def pop_unchecked [Inhabited T] (N : Nat) (s : RingBuffer T) : RingBuffer T × T :=
  let value := s.buffer.getD s.read_ptr default
  ({ s with read_ptr := (s.read_ptr + 1) % N, is_full := false }, value)

/-- `RingBuffer::pop_buffer`.  The caller's `std::span<T>` destination is
modelled as its length `destLen` plus the memory `mem` behind the pointer
(`mem` may be longer than the span: the source copies through raw iterators,
so writes past the span's end land in the memory that follows it).  The two
nested error returns of the source both produce `Error::Empty`. -/
def pop_buffer (N : Nat) (s : RingBuffer T) (destLen : Nat) (mem : List T) :
    RingBuffer T × List T × Option Err :=
  if destLen > sizeB N s then
    (s, mem, some .Empty)
  else
    let items_until_wrap := N - s.read_ptr
    let mem :=
      if destLen > items_until_wrap then
        -- chunk1 = storage.last(items_until_wrap) copied to dest;
        -- chunk2 = storage.first(destLen - items_until_wrap) copied to dest + items_until_wrap.
        copyInto (copyInto mem 0 (lastN s.buffer items_until_wrap))
          items_until_wrap (s.buffer.take (destLen - items_until_wrap))
      else
        -- std::copy(storage.begin() + _read_ptr,
        --           storage.begin() + _read_ptr + items_until_wrap, dest.begin()):
        -- the copied length is items_until_wrap, not the span's length.
        copyInto mem 0 ((s.buffer.drop s.read_ptr).take items_until_wrap)
    ({ s with read_ptr := (s.read_ptr + destLen) % N, is_full := false }, mem, none)

/-! ## The iterator (`iterator.hpp`) -/

/-- `Iterator<T>`: non-owning span of the storage, physical index, cycle count.
`ptr` is `size_t`, `cycle` is `ssize_t`. -/
structure Iterator (T : Type) where
  data : List T
  ptr : Nat
  cycle : Int
deriving DecidableEq

/-- `Sentinel`: snapshot of a physical index and a cycle. -/
structure Sentinel where
  ptr : Nat
  cycle : Int
deriving DecidableEq

/-- `RingBuffer::begin`: iterator at `_read_ptr`, cycle 0, over the storage. -/
def beginIt (s : RingBuffer T) : Iterator T :=
  ⟨s.buffer, s.read_ptr, 0⟩

/-- `RingBuffer::end`: sentinel at `_write_ptr`; cycle 1 when
`_write_ptr < _read_ptr` or the buffer is full, else cycle 0. -/
def endIt (s : RingBuffer T) : Sentinel :=
  if s.write_ptr < s.read_ptr || fullB s then
    ⟨s.write_ptr, 1⟩
  else
    ⟨s.write_ptr, 0⟩

/-- `Iterator::operator==(Sentinel)`. -/
def Iterator.eqSentinel (it : Iterator T) (other : Sentinel) : Bool :=
  it.cycle == other.cycle && it.ptr == other.ptr

/-- `Iterator::operator==(Iterator)`. -/
def Iterator.eqIter (it other : Iterator T) : Bool :=
  it.cycle == other.cycle && it.ptr == other.ptr

/-- `Iterator::operator*`: `data[ptr]`. -/
def Iterator.deref [Inhabited T] (it : Iterator T) : T :=
  it.data.getD it.ptr default

/-- `Iterator::operator++` (pre-increment; the post-increment mutation is identical). -/
def Iterator.inc (it : Iterator T) : Iterator T :=
  if it.ptr ≥ it.data.length - 1 then
    { it with ptr := 0, cycle := it.cycle + 1 }
  else
    { it with ptr := it.ptr + 1 }

/-- `Iterator::operator--` (pre-decrement; the post-decrement mutation is identical). -/
def Iterator.dec (it : Iterator T) : Iterator T :=
  if it.ptr == 0 then
    { it with ptr := it.data.length - 1, cycle := it.cycle - 1 }
  else
    { it with ptr := it.ptr - 1 }

/-- `Iterator::operator+=`.  `std::div` is truncated division (`Int.tdiv` /
`Int.tmod`); the final `static_cast<size_t>(new_ptr)` is `Int.toNat`
(`new_ptr` is non-negative on every path of the source, so the cast is
value-preserving there; `toNat` matches it on those paths). -/
def Iterator.addAssign (it : Iterator T) (other : Int) : Iterator T :=
  let data_size : Int := (it.data.length : Int)
  let new_ptr : Int := (it.ptr : Int) + other
  let res :=
    if new_ptr ≥ data_size then
      (it.cycle + new_ptr.tdiv data_size, new_ptr.tmod data_size)
    else
      (it.cycle, new_ptr)
  let res :=
    if res.2 < 0 then
      (res.1 + res.2.tdiv data_size, data_size + res.2.tmod data_size)
    else
      res
  { it with ptr := res.2.toNat, cycle := res.1 }

/-- `Iterator::operator-=`: same normalization applied to `ptr - other`. -/
def Iterator.subAssign (it : Iterator T) (other : Int) : Iterator T :=
  let data_size : Int := (it.data.length : Int)
  let new_ptr : Int := (it.ptr : Int) - other
  let res :=
    if new_ptr ≥ data_size then
      (it.cycle + new_ptr.tdiv data_size, new_ptr.tmod data_size)
    else
      (it.cycle, new_ptr)
  let res :=
    if res.2 < 0 then
      (res.1 + res.2.tdiv data_size, data_size + res.2.tmod data_size)
    else
      res
  { it with ptr := res.2.toNat, cycle := res.1 }

/-- Free `operator+(Iterator, difference_type)`.  The constructed iterator casts
`cycle` through `size_t` and back through `ssize_t`, a value-preserving
round trip on the 64-bit two's-complement target, so it is the identity here. -/
def Iterator.addOffset (lhs : Iterator T) (rhs : Int) : Iterator T :=
  let data_size : Int := (lhs.data.length : Int)
  let p : Int := (lhs.ptr : Int) + rhs
  let res :=
    if p ≥ data_size then
      (lhs.cycle + p.tdiv data_size, p.tmod data_size)
    else
      (lhs.cycle, p)
  let res :=
    if res.2 < 0 then
      (res.1 + res.2.tdiv data_size, data_size + res.2.tmod data_size)
    else
      res
  ⟨lhs.data, res.2.toNat, res.1⟩

/-- Free `operator+(difference_type, Iterator)`: defined as `rhs + lhs`. -/
def Iterator.offsetAdd (lhs : Int) (rhs : Iterator T) : Iterator T :=
  rhs.addOffset lhs

/-- Free `operator-(Iterator, difference_type)`: the `operator+` body on `ptr - rhs`. -/
def Iterator.subOffset (lhs : Iterator T) (rhs : Int) : Iterator T :=
  let data_size : Int := (lhs.data.length : Int)
  let p : Int := (lhs.ptr : Int) - rhs
  let res :=
    if p ≥ data_size then
      (lhs.cycle + p.tdiv data_size, p.tmod data_size)
    else
      (lhs.cycle, p)
  let res :=
    if res.2 < 0 then
      (res.1 + res.2.tdiv data_size, data_size + res.2.tmod data_size)
    else
      res
  ⟨lhs.data, res.2.toNat, res.1⟩

/-- `Iterator::operator[]`: `data[(ptr + index) % data.size()]`. -/
def Iterator.index [Inhabited T] (it : Iterator T) (i : Nat) : T :=
  it.data.getD ((it.ptr + i) % it.data.length) default

/-- `Iterator::operator-(Sentinel)`: logical difference using this iterator's
data size for both operands. -/
def Iterator.subSentinel (it : Iterator T) (other : Sentinel) : Int :=
  let data_size : Int := (it.data.length : Int)
  ((it.ptr : Int) + it.cycle * data_size) - ((other.ptr : Int) + other.cycle * data_size)

/-- `Iterator::operator-(Iterator)`: each operand uses its own data size. -/
def Iterator.subIter (it other : Iterator T) : Int :=
  ((it.ptr : Int) + it.cycle * (it.data.length : Int)) -
    ((other.ptr : Int) + other.cycle * (other.data.length : Int))

/-- `Sentinel::operator-(Iterator)`: uses the iterator's data size for both. -/
def Sentinel.subIter (sn : Sentinel) (other : Iterator T) : Int :=
  let data_size : Int := (other.data.length : Int)
  ((sn.ptr : Int) + sn.cycle * data_size) - ((other.ptr : Int) + other.cycle * data_size)

end RingBuf

/-! ## Helper lemmas -/

namespace RingBuf

theorem mod_split {a N : Nat} (h : a < 2 * N) : a % N = if a < N then a else a - N := by
  split
  · exact Nat.mod_eq_of_lt (by assumption)
  · rename_i h2
    rw [Nat.mod_eq_sub_mod (Nat.le_of_not_lt h2)]
    exact Nat.mod_eq_of_lt (by omega)

theorem copyInto_length (src : List T) :
    ∀ (dst : List T) (i : Nat), (copyInto dst i src).length = dst.length := by
  induction src with
  | nil => intro dst i; rfl
  | cons x xs ih => intro dst i; rw [copyInto, ih, List.length_set]

theorem copyInto_getElem?_lt (src : List T) :
    ∀ (dst : List T) (i k : Nat), k < i → (copyInto dst i src)[k]? = dst[k]? := by
  induction src with
  | nil => intro _ _ _ _; rfl
  | cons x xs ih =>
    intro dst i k hk
    rw [copyInto, ih _ _ _ (by omega), List.getElem?_set_ne (by omega)]

theorem copyInto_getElem?_ge (src : List T) :
    ∀ (dst : List T) (i k : Nat), i + src.length ≤ k → (copyInto dst i src)[k]? = dst[k]? := by
  induction src with
  | nil => intro _ _ _ _; rfl
  | cons x xs ih =>
    intro dst i k hk
    simp only [List.length_cons] at hk
    rw [copyInto, ih _ _ _ (by omega), List.getElem?_set_ne (by omega)]

theorem copyInto_getElem?_mem (src : List T) :
    ∀ (dst : List T) (i j : Nat), j < src.length → i + src.length ≤ dst.length →
      (copyInto dst i src)[i + j]? = src[j]? := by
  induction src with
  | nil => intro _ _ j hj _; simp at hj
  | cons x xs ih =>
    intro dst i j hj hlen
    simp only [List.length_cons] at hj hlen
    rw [copyInto]
    cases j with
    | zero =>
      rw [copyInto_getElem?_lt xs _ _ _ (by omega)]
      simp only [Nat.add_zero]
      rw [List.getElem?_set_self (by omega)]
      simp
    | succ j' =>
      have harr : i + (j' + 1) = (i + 1) + j' := by omega
      rw [harr, ih _ _ _ (by omega) (by rw [List.length_set]; omega)]
      simp

theorem copyInto_getD_lt (src dst : List T) (i k : Nat) (d : T) (h : k < i) :
    (copyInto dst i src).getD k d = dst.getD k d := by
  rw [List.getD_eq_getElem?_getD, List.getD_eq_getElem?_getD, copyInto_getElem?_lt _ _ _ _ h]

theorem copyInto_getD_ge (src dst : List T) (i k : Nat) (d : T) (h : i + src.length ≤ k) :
    (copyInto dst i src).getD k d = dst.getD k d := by
  rw [List.getD_eq_getElem?_getD, List.getD_eq_getElem?_getD, copyInto_getElem?_ge _ _ _ _ h]

theorem copyInto_getD_mem (src dst : List T) (i j : Nat) (d : T) (hj : j < src.length)
    (hlen : i + src.length ≤ dst.length) :
    (copyInto dst i src).getD (i + j) d = src.getD j d := by
  rw [List.getD_eq_getElem?_getD, List.getD_eq_getElem?_getD,
    copyInto_getElem?_mem _ _ _ _ hj hlen]

end RingBuf

/-! ## Claims -/

namespace RingBuf

/-- C7: for every buffer state with both cursors in `[0, N)` (any `is_full`),
`size() + free() == capacity()`. -/
theorem size_add_free_eq_capacity {T : Type} (N : Nat) (s : RingBuffer T)
    (hw : s.write_ptr < N) (hr : s.read_ptr < N) :
    sizeB N s + freeB N s = capacityB N s := by
  rcases s with ⟨buf, w, r, f⟩
  simp only at hw hr
  cases f <;> simp only [sizeB, freeB, capacityB] <;> split_ifs <;> omega

/-- C7 witness: instantiation at a concrete capacity-4 state. -/
theorem size_add_free_eq_capacity_witness :
    (1 < 4 ∧ 3 < 4) ∧
    sizeB 4 (⟨[0, 0, 0, 0], 1, 3, false⟩ : RingBuffer Nat) +
      freeB 4 (⟨[0, 0, 0, 0], 1, 3, false⟩ : RingBuffer Nat) =
      capacityB 4 (⟨[0, 0, 0, 0], 1, 3, false⟩ : RingBuffer Nat) :=
  ⟨by decide, size_add_free_eq_capacity 4 _ (by decide) (by decide)⟩

/-- C5: each checked operation fails exactly when its guard holds, only ever
emits its own error kind, and leaves the buffer state (and, for `pop_buffer`,
the destination memory) untouched on the error path. -/
theorem checked_error_paths {T : Type} [Inhabited T] (N : Nat) (s : RingBuffer T)
    (v : T) (items : List T) (destLen : Nat) (mem : List T) :
    ((push N s v).2 = some Err.Full ↔ fullB s = true) ∧
    (push N s v).2 ≠ some Err.Empty ∧
    ((push N s v).2 = some Err.Full → (push N s v).1 = s) ∧
    ((push_buffer N s items).2 = some Err.Full ↔ freeB N s < items.length) ∧
    (push_buffer N s items).2 ≠ some Err.Empty ∧
    ((push_buffer N s items).2 = some Err.Full → (push_buffer N s items).1 = s) ∧
    ((pop N s).2 = Except.error Err.Empty ↔ emptyB s = true) ∧
    (∀ e : Err, (pop N s).2 = Except.error e → e = Err.Empty) ∧
    ((pop N s).2 = Except.error Err.Empty → (pop N s).1 = s) ∧
    ((pop_buffer N s destLen mem).2.2 = some Err.Empty ↔ sizeB N s < destLen) ∧
    (pop_buffer N s destLen mem).2.2 ≠ some Err.Full ∧
    ((pop_buffer N s destLen mem).2.2 = some Err.Empty →
      (pop_buffer N s destLen mem).1 = s ∧ (pop_buffer N s destLen mem).2.1 = mem) := by
  refine ⟨?_, ?_, ?_, ?_, ?_, ?_, ?_, ?_, ?_, ?_, ?_, ?_⟩ <;>
    simp only [push, push_buffer, pop, pop_buffer, fullB, emptyB] <;>
    split_ifs <;> simp_all

/-- C5 witness: a full capacity-2 buffer rejects `push` and is unchanged by it. -/
theorem checked_error_paths_witness :
    (push 2 (⟨[5, 6], 0, 0, true⟩ : RingBuffer Nat) 7).2 = some Err.Full ∧
    (push 2 (⟨[5, 6], 0, 0, true⟩ : RingBuffer Nat) 7).1 = ⟨[5, 6], 0, 0, true⟩ :=
  ⟨(checked_error_paths 2 ⟨[5, 6], 0, 0, true⟩ 7 [] 0 []).1.mpr (by decide),
   (checked_error_paths 2 ⟨[5, 6], 0, 0, true⟩ 7 [] 0 []).2.2.1
     ((checked_error_paths 2 ⟨[5, 6], 0, 0, true⟩ 7 [] 0 []).1.mpr (by decide))⟩

/-- C9: pushing a zero-length batch onto an empty buffer (`write == read`, not
full) succeeds and leaves the cursors and storage unchanged, yet marks the
buffer full, so `size()` then reports `capacity()`. -/
theorem push_buffer_nil_empty_marks_full {T : Type} (N : Nat) (s : RingBuffer T)
    (hw : s.write_ptr < N) (heq : s.write_ptr = s.read_ptr) (hf : s.is_full = false) :
    (push_buffer N s []).2 = none ∧
    fullB (push_buffer N s []).1 = true ∧
    sizeB N (push_buffer N s []).1 = capacityB N s ∧
    (push_buffer N s []).1.buffer = s.buffer ∧
    (push_buffer N s []).1.write_ptr = s.write_ptr ∧
    (push_buffer N s []).1.read_ptr = s.read_ptr := by
  rcases s with ⟨buf, w, r, f⟩
  simp only at hw heq hf
  subst hf
  subst heq
  simp [push_buffer, freeB, sizeB, fullB, capacityB, copyInto, Nat.mod_eq_of_lt hw]

/-- C9 witness: instantiation at the fresh capacity-4 buffer. -/
theorem push_buffer_nil_empty_marks_full_witness :
    (0 < 4 ∧ (initBuf Nat 4).write_ptr = (initBuf Nat 4).read_ptr ∧
      (initBuf Nat 4).is_full = false) ∧
    fullB (push_buffer 4 (initBuf Nat 4) []).1 = true ∧
    sizeB 4 (push_buffer 4 (initBuf Nat 4) []).1 = capacityB 4 (initBuf Nat 4) :=
  ⟨by decide,
   (push_buffer_nil_empty_marks_full 4 (initBuf Nat 4) (by decide) (by decide) (by decide)).2.1,
   (push_buffer_nil_empty_marks_full 4 (initBuf Nat 4) (by decide) (by decide)
     (by decide)).2.2.1⟩

/-- C1: evaluation of the five offset operators at inputs whose raw index
crosses below zero.  `std::div` truncates toward zero, so when the remainder is
negative the code adds `N` to it without decrementing the cycle: the result's
logical position `ptr + cycle * N` equals the expected one plus `N`, and for
`d = -N` the physical index even lands on `N`, outside `[0, N)`. -/
theorem iter_offset_negative_loses_cycle :
    (Iterator.addAssign (⟨List.replicate 64 (0 : Nat), 0, 0⟩ : Iterator Nat) (-1)).ptr = 63 ∧
    (Iterator.addAssign (⟨List.replicate 64 (0 : Nat), 0, 0⟩ : Iterator Nat) (-1)).cycle = 0 ∧
    ((63 : Int) + 0 * 64 ≠ (0 : Int) + 0 * 64 + (-1)) ∧
    (Iterator.addAssign (⟨List.replicate 64 (0 : Nat), 0, 0⟩ : Iterator Nat) (-64)).ptr = 64 ∧
    (Iterator.subAssign (⟨List.replicate 64 (0 : Nat), 0, 0⟩ : Iterator Nat) 1).ptr = 63 ∧
    (Iterator.subAssign (⟨List.replicate 64 (0 : Nat), 0, 0⟩ : Iterator Nat) 1).cycle = 0 ∧
    (Iterator.addOffset (⟨List.replicate 64 (0 : Nat), 0, 0⟩ : Iterator Nat) (-1)).ptr = 63 ∧
    (Iterator.addOffset (⟨List.replicate 64 (0 : Nat), 0, 0⟩ : Iterator Nat) (-1)).cycle = 0 ∧
    (Iterator.offsetAdd (-1) (⟨List.replicate 64 (0 : Nat), 0, 0⟩ : Iterator Nat)).ptr = 63 ∧
    (Iterator.offsetAdd (-1) (⟨List.replicate 64 (0 : Nat), 0, 0⟩ : Iterator Nat)).cycle = 0 ∧
    (Iterator.subOffset (⟨List.replicate 64 (0 : Nat), 0, 0⟩ : Iterator Nat) 1).ptr = 63 ∧
    (Iterator.subOffset (⟨List.replicate 64 (0 : Nat), 0, 0⟩ : Iterator Nat) 1).cycle = 0 := by
  decide

/-- C2: evaluation of `pop_buffer` at a state whose live data does not wrap and
where the requested length (1) is smaller than `Capacity - read_cursor` (4):
the non-wrapping branch copies `Capacity - read_cursor` elements, overwriting
destination memory past index `L - 1`. -/
theorem pop_buffer_writes_past_destination :
    1 ≤ sizeB 4 (⟨[10, 20, 30, 40], 2, 0, false⟩ : RingBuffer Nat) ∧
    (pop_buffer 4 (⟨[10, 20, 30, 40], 2, 0, false⟩ : RingBuffer Nat) 1
      [99, 99, 99, 99, 99]).2.2 = none ∧
    (pop_buffer 4 (⟨[10, 20, 30, 40], 2, 0, false⟩ : RingBuffer Nat) 1
      [99, 99, 99, 99, 99]).2.1 = [10, 20, 30, 40, 99] := by
  decide

end RingBuf

namespace RingBuf

theorem advance_eq_read_iff (N w r L : Nat) (hw : w < N) (hr : r < N) (hL : 1 ≤ L)
    (hfit : (if w ≥ r then w - r else w + (N - r)) + L ≤ N) :
    ((w + L) % N = r ↔ (if w ≥ r then w - r else w + (N - r)) + L = N) := by
  have hLN : L ≤ N := by split_ifs at hfit <;> omega
  rw [mod_split (show w + L < 2 * N by omega)]
  split_ifs at hfit ⊢ <;> omega

theorem advance_size_val (N w r L : Nat) (hw : w < N) (hr : r < N)
    (hfit : (if w ≥ r then w - r else w + (N - r)) + L ≤ N)
    (hne : (w + L) % N ≠ r) :
    (if (w + L) % N ≥ r then (w + L) % N - r else (w + L) % N + (N - r)) =
      (if w ≥ r then w - r else w + (N - r)) + L := by
  have hLN : L ≤ N := by split_ifs at hfit <;> omega
  rw [mod_split (show w + L < 2 * N by omega)] at hne ⊢
  split_ifs at hfit hne ⊢ <;> omega

theorem push_buffer_content (buf items : List T) [Inhabited T] (w N : Nat)
    (hlen : buf.length = N) (hw : w < N) (hLN : items.length ≤ N) :
    ∀ i, i < items.length →
      (if items.length > N - w then
          copyInto (copyInto buf w (items.take (N - w))) 0 (items.drop (N - w))
        else copyInto buf w items).getD ((w + i) % N) default = items.getD i default := by
  intro i hi
  by_cases hbr : items.length > N - w
  · rw [if_pos hbr]
    by_cases hiw : i < N - w
    · -- first chunk: physical position w + i, untouched by the second copy
      rw [Nat.mod_eq_of_lt (show w + i < N by omega)]
      rw [copyInto_getD_ge _ _ _ _ _ (by simp [List.length_drop]; omega)]
      rw [copyInto_getD_mem _ _ _ _ _ (by simp [List.length_take]; omega)
        (by simp [List.length_take]; omega)]
      rw [List.getD_eq_getElem?_getD, List.getD_eq_getElem?_getD,
        List.getElem?_take_of_lt hiw]
    · -- second chunk: physical position w + i - N, written by the second copy
      have hpos : (w + i) % N = w + i - N := by
        rw [mod_split (show w + i < 2 * N by omega)]
        simp only [if_neg (show ¬ w + i < N by omega)]
      rw [hpos]
      have hj : w + i - N < (items.drop (N - w)).length := by
        simp [List.length_drop]; omega
      have h0 : w + i - N = 0 + (w + i - N) := by omega
      rw [h0, copyInto_getD_mem _ _ _ _ _ hj
        (by rw [copyInto_length]; simp [List.length_drop]; omega)]
      rw [List.getD_eq_getElem?_getD, List.getD_eq_getElem?_getD, List.getElem?_drop]
      have harg : N - w + (w + i - N) = i := by omega
      rw [harg]
  · rw [if_neg hbr]
    rw [Nat.mod_eq_of_lt (show w + i < N by omega)]
    rw [copyInto_getD_mem _ _ _ _ _ hi (by omega)]

end RingBuf

namespace RingBuf

/-- C3 counterexample: a zero-length batch satisfies `L ≤ free()`, and
`push_buffer` succeeds, but on an empty buffer the final size is the full
capacity rather than `size() + L = 0`. -/
theorem push_buffer_zero_len_counterexample :
    ([] : List Nat).length ≤ freeB 1 (initBuf Nat 1) ∧
    (push_buffer 1 (initBuf Nat 1) ([] : List Nat)).2 = none ∧
    sizeB 1 (push_buffer 1 (initBuf Nat 1) ([] : List Nat)).1 ≠
      sizeB 1 (initBuf Nat 1) + ([] : List Nat).length := by
  decide

theorem sizeB_mk_false (N : Nat) (b : List T) (w r : Nat) :
    sizeB N ⟨b, w, r, false⟩ = if w ≥ r then w - r else w + (N - r) := rfl

theorem sizeB_mk_true (N : Nat) (b : List T) (w r : Nat) :
    sizeB N ⟨b, w, r, true⟩ = N := rfl

theorem freeB_mk_false (N : Nat) (b : List T) (w r : Nat) :
    freeB N ⟨b, w, r, false⟩ = if w ≥ r then (N - w) + r else r - w := rfl

theorem fullB_mk (b : List T) (w r : Nat) (f : Bool) :
    fullB ⟨b, w, r, f⟩ = f := rfl

/-- C3 (amended: the batch must be non-empty): for every state with cursors in
range and every batch of length `L` with `1 ≤ L ≤ free()`, `push_buffer`
succeeds, stores the `L` items into storage starting at `write_cursor`
(wrapping across the physical end), advances `write_cursor` by `L` modulo `N`,
afterwards `size()` equals the old `size()` plus `L`, and `full()` holds
afterwards iff the new size equals `capacity()`. -/
theorem push_buffer_batch_success {T : Type} [Inhabited T] (N : Nat) (s : RingBuffer T)
    (items : List T) (hlen : s.buffer.length = N) (hw : s.write_ptr < N)
    (hr : s.read_ptr < N) (hpos : 1 ≤ items.length) (hfree : items.length ≤ freeB N s) :
    (push_buffer N s items).2 = none ∧
    (push_buffer N s items).1.write_ptr = (s.write_ptr + items.length) % N ∧
    (push_buffer N s items).1.read_ptr = s.read_ptr ∧
    sizeB N (push_buffer N s items).1 = sizeB N s + items.length ∧
    (fullB (push_buffer N s items).1 = true ↔
      sizeB N (push_buffer N s items).1 = capacityB N s) ∧
    (∀ i, i < items.length →
      (push_buffer N s items).1.buffer.getD ((s.write_ptr + i) % N) default =
        items.getD i default) := by
  rcases s with ⟨buf, w, r, f⟩
  simp only at hlen hw hr
  have hnf : f = false := by
    cases f
    · rfl
    · exfalso
      rw [show freeB N ⟨buf, w, r, true⟩ = 0 from rfl] at hfree
      omega
  subst hnf
  rw [freeB_mk_false] at hfree
  have hfit : (if w ≥ r then w - r else w + (N - r)) + items.length ≤ N := by
    split_ifs at hfree ⊢ <;> omega
  have hLN : items.length ≤ N := by split_ifs at hfit <;> omega
  have hnb : ¬ (items.length > freeB N ⟨buf, w, r, false⟩) := by
    rw [freeB_mk_false]; exact Nat.not_lt.mpr hfree
  simp only [push_buffer, if_neg hnb, beq_iff_eq]
  by_cases hwr : (w + items.length) % N = r
  · rw [if_pos hwr]
    refine ⟨by trivial, by trivial, by trivial, ?_, ?_, ?_⟩
    · rw [sizeB_mk_true, sizeB_mk_false]
      exact ((advance_eq_read_iff N w r items.length hw hr hpos hfit).mp hwr).symm
    · rw [fullB_mk, sizeB_mk_true]
      simp [capacityB]
    · exact push_buffer_content buf items w N hlen hw hLN
  · rw [if_neg hwr]
    refine ⟨by trivial, by trivial, by trivial, ?_, ?_, ?_⟩
    · rw [sizeB_mk_false, sizeB_mk_false]
      exact advance_size_val N w r items.length hw hr hfit hwr
    · rw [fullB_mk, sizeB_mk_false]
      simp only [capacityB]
      rw [advance_size_val N w r items.length hw hr hfit hwr,
        ← advance_eq_read_iff N w r items.length hw hr hpos hfit]
      simp [hwr]
    · exact push_buffer_content buf items w N hlen hw hLN

/-- C3 witness: a capacity-4 buffer with two live elements takes a length-2
batch that wraps across the physical end and becomes exactly full. -/
theorem push_buffer_batch_success_witness :
    ((⟨[0, 0, 0, 0], 3, 1, false⟩ : RingBuffer Nat).buffer.length = 4 ∧
      1 ≤ [7, 8].length ∧
      [7, 8].length ≤ freeB 4 (⟨[0, 0, 0, 0], 3, 1, false⟩ : RingBuffer Nat)) ∧
    sizeB 4 (push_buffer 4 (⟨[0, 0, 0, 0], 3, 1, false⟩ : RingBuffer Nat) [7, 8]).1 =
      sizeB 4 (⟨[0, 0, 0, 0], 3, 1, false⟩ : RingBuffer Nat) + [7, 8].length :=
  ⟨by decide,
   (push_buffer_batch_success 4 ⟨[0, 0, 0, 0], 3, 1, false⟩ [7, 8] (by decide) (by decide)
     (by decide) (by decide) (by decide)).2.2.2.1⟩

end RingBuf

namespace RingBuf

theorem addOffset_ofNat (it : Iterator T) (k : Nat) :
    it.addOffset (k : Int) =
      ⟨it.data, (it.ptr + k) % it.data.length,
        it.cycle + (((it.ptr + k) / it.data.length : Nat) : Int)⟩ := by
  simp only [Iterator.addOffset]
  have hcast : (it.ptr : Int) + (k : Int) = ((it.ptr + k : Nat) : Int) := by push_cast; ring
  rw [hcast]
  by_cases hge : ((it.ptr + k : Nat) : Int) ≥ (it.data.length : Int)
  · rw [if_pos hge]
    have htd : ((it.ptr + k : Nat) : Int).tdiv (it.data.length : Int) =
        (((it.ptr + k) / it.data.length : Nat) : Int) := rfl
    have htm : ((it.ptr + k : Nat) : Int).tmod (it.data.length : Int) =
        (((it.ptr + k) % it.data.length : Nat) : Int) := rfl
    rw [htd, htm]
    rw [if_neg (by exact Int.not_lt.mpr (Int.natCast_nonneg _))]
    rfl
  · rw [if_neg hge]
    rw [if_neg (by exact Int.not_lt.mpr (Int.natCast_nonneg _))]
    have hlt : it.ptr + k < it.data.length := by
      exact_mod_cast Int.not_le.mp (fun h => hge h)
    simp [Nat.mod_eq_of_lt hlt, Nat.div_eq_of_lt hlt]
    rw [hcast]
    rfl

theorem inc_iterate64 (data : List T) (hlen : data.length = 64) (r : Nat) (hr : r < 64)
    (c : Int) : ∀ m : Nat, Iterator.inc^[m] (⟨data, r, c⟩ : Iterator T) =
      ⟨data, (r + m) % 64, c + (((r + m) / 64 : Nat) : Int)⟩ := by
  intro m
  induction m with
  | zero =>
    simp [Nat.mod_eq_of_lt hr, Nat.div_eq_of_lt hr]
  | succ m ih =>
    rw [Function.iterate_succ_apply', ih]
    unfold Iterator.inc
    simp only [hlen]
    by_cases hb : (r + m) % 64 ≥ 64 - 1
    · rw [if_pos hb]
      have h1 : (r + (m + 1)) % 64 = 0 := by omega
      have h2 : (r + (m + 1)) / 64 = (r + m) / 64 + 1 := by omega
      rw [h1, h2]
      congr 1
      push_cast
      ring
    · rw [if_neg hb]
      have h1 : (r + (m + 1)) % 64 = (r + m) % 64 + 1 := by omega
      have h2 : (r + (m + 1)) / 64 = (r + m) / 64 := by omega
      rw [h1, h2]

end RingBuf

namespace RingBuf

/-- C8: for a full capacity-64 buffer whose logical (FIFO) content is 0..63,
for any read cursor position (including wrapped ones): `begin()[k] = k`,
`*(begin() + k) = k`, `begin() + 64` equals `end()`, `end() - begin() = 64`,
and 64 pre-increments take `begin()` to `end()`. -/
theorem iterator_algebra_full64 (s : RingBuffer Nat) (hlen : s.buffer.length = 64)
    (hr : s.read_ptr < 64) (hwr : s.write_ptr = s.read_ptr) (hfull : s.is_full = true)
    (hvals : ∀ k, k < 64 → s.buffer.getD ((s.read_ptr + k) % 64) default = k) :
    (∀ k, k < 64 → (beginIt s).index k = k) ∧
    (∀ k, k < 64 → ((beginIt s).addOffset ((k : Nat) : Int)).deref = k) ∧
    ((beginIt s).addOffset ((64 : Nat) : Int)).eqSentinel (endIt s) = true ∧
    Sentinel.subIter (endIt s) (beginIt s) = 64 ∧
    (Iterator.inc^[64] (beginIt s)).eqSentinel (endIt s) = true := by
  have hend : endIt s = ⟨s.read_ptr, 1⟩ := by
    unfold endIt
    rw [if_pos (by simp [fullB, hfull]), hwr]
  have h64 : (beginIt s).addOffset ((64 : Nat) : Int) =
      (⟨s.buffer, s.read_ptr, 1⟩ : Iterator Nat) := by
    rw [addOffset_ofNat]
    have e1 : ((beginIt s).ptr + 64) % (beginIt s).data.length = s.read_ptr := by
      show (s.read_ptr + 64) % s.buffer.length = s.read_ptr
      rw [hlen]; omega
    have e2 : ((beginIt s).ptr + 64) / (beginIt s).data.length = 1 := by
      show (s.read_ptr + 64) / s.buffer.length = 1
      rw [hlen]; omega
    rw [e1, e2]
    show (⟨s.buffer, s.read_ptr, 0 + ((1 : Nat) : Int)⟩ : Iterator Nat) = _
    norm_num
  have h5 : Iterator.inc^[64] (beginIt s) = (⟨s.buffer, s.read_ptr, 1⟩ : Iterator Nat) := by
    rw [show (beginIt s) = (⟨s.buffer, s.read_ptr, 0⟩ : Iterator Nat) from rfl,
      inc_iterate64 s.buffer hlen s.read_ptr hr 0 64]
    have e1 : (s.read_ptr + 64) % 64 = s.read_ptr := by omega
    have e2 : (s.read_ptr + 64) / 64 = 1 := by omega
    rw [e1, e2]
    norm_num
  refine ⟨?_, ?_, ?_, ?_, ?_⟩
  · intro k hk
    show s.buffer.getD ((s.read_ptr + k) % s.buffer.length) default = k
    rw [hlen]
    exact hvals k hk
  · intro k hk
    rw [addOffset_ofNat]
    show s.buffer.getD (((beginIt s).ptr + k) % (beginIt s).data.length) default = k
    show s.buffer.getD ((s.read_ptr + k) % s.buffer.length) default = k
    rw [hlen]
    exact hvals k hk
  · rw [h64, hend]
    simp [Iterator.eqSentinel]
  · rw [hend]
    show ((s.read_ptr : Int) + 1 * (s.buffer.length : Int)) -
      ((s.read_ptr : Int) + 0 * (s.buffer.length : Int)) = 64
    rw [hlen]
    omega
  · rw [h5, hend]
    simp [Iterator.eqSentinel]

/-- C8 witness: read cursor 40, storage holding `(j + 24) % 64` at physical
index `j`, so logical order is 0..63 and the live run wraps the physical end. -/
theorem iterator_algebra_full64_witness :
    ((⟨(List.range 64).map (fun j => (j + 24) % 64), 40, 40, true⟩ :
        RingBuffer Nat).buffer.length = 64 ∧ (40 : Nat) < 64) ∧
    ((beginIt (⟨(List.range 64).map (fun j => (j + 24) % 64), 40, 40, true⟩ :
        RingBuffer Nat)).addOffset ((64 : Nat) : Int)).eqSentinel
      (endIt (⟨(List.range 64).map (fun j => (j + 24) % 64), 40, 40, true⟩ :
        RingBuffer Nat)) = true ∧
    Sentinel.subIter
      (endIt (⟨(List.range 64).map (fun j => (j + 24) % 64), 40, 40, true⟩ :
        RingBuffer Nat))
      (beginIt (⟨(List.range 64).map (fun j => (j + 24) % 64), 40, 40, true⟩ :
        RingBuffer Nat)) = 64 :=
  ⟨by decide,
   (iterator_algebra_full64 _ (by decide) (by decide) (by decide) (by decide)
     (by decide)).2.2.1,
   (iterator_algebra_full64 _ (by decide) (by decide) (by decide) (by decide)
     (by decide)).2.2.2.1⟩

end RingBuf

namespace RingBuf

/-- States reachable from a fresh buffer through the public operations,
including the unchecked ones (with arbitrary misuse). -/
inductive Reachable (T : Type) [Inhabited T] (N : Nat) : RingBuffer T → Prop where
  | init : Reachable T N (initBuf T N)
  | push : ∀ {s} (v : T), Reachable T N s → Reachable T N (push N s v).1
  | push_unchecked : ∀ {s} (v : T), Reachable T N s →
      Reachable T N (push_unchecked N s v)
  | push_buffer : ∀ {s} (items : List T), Reachable T N s →
      Reachable T N (push_buffer N s items).1
  | pop : ∀ {s}, Reachable T N s → Reachable T N (pop N s).1
  | pop_unchecked : ∀ {s}, Reachable T N s → Reachable T N (pop_unchecked N s).1
  | pop_buffer : ∀ {s} (len : Nat) (mem : List T), Reachable T N s →
      Reachable T N (pop_buffer N s len mem).1
  | clear : ∀ {s}, Reachable T N s → Reachable T N (clearB s)

/-- States reachable through the public operations when `push_unchecked` is
only invoked with space available (the caller obligation the source documents). -/
inductive ReachableSafe (T : Type) [Inhabited T] (N : Nat) : RingBuffer T → Prop where
  | init : ReachableSafe T N (initBuf T N)
  | push : ∀ {s} (v : T), ReachableSafe T N s → ReachableSafe T N (push N s v).1
  | push_unchecked : ∀ {s} (v : T), s.is_full = false → ReachableSafe T N s →
      ReachableSafe T N (push_unchecked N s v)
  | push_buffer : ∀ {s} (items : List T), ReachableSafe T N s →
      ReachableSafe T N (push_buffer N s items).1
  | pop : ∀ {s}, ReachableSafe T N s → ReachableSafe T N (pop N s).1
  | pop_unchecked : ∀ {s}, ReachableSafe T N s → ReachableSafe T N (pop_unchecked N s).1
  | pop_buffer : ∀ {s} (len : Nat) (mem : List T), ReachableSafe T N s →
      ReachableSafe T N (pop_buffer N s len mem).1
  | clear : ∀ {s}, ReachableSafe T N s → ReachableSafe T N (clearB s)

/-- States reachable through the checked operations and `clear` only. -/
inductive ReachableChecked (T : Type) [Inhabited T] (N : Nat) : RingBuffer T → Prop where
  | init : ReachableChecked T N (initBuf T N)
  | push : ∀ {s} (v : T), ReachableChecked T N s → ReachableChecked T N (push N s v).1
  | push_buffer : ∀ {s} (items : List T), ReachableChecked T N s →
      ReachableChecked T N (push_buffer N s items).1
  | pop : ∀ {s}, ReachableChecked T N s → ReachableChecked T N (pop N s).1
  | pop_buffer : ∀ {s} (len : Nat) (mem : List T), ReachableChecked T N s →
      ReachableChecked T N (pop_buffer N s len mem).1
  | clear : ∀ {s}, ReachableChecked T N s → ReachableChecked T N (clearB s)

/-- The cursor-bounds-and-full-flag invariant of the data model. -/
def Inv (N : Nat) (s : RingBuffer T) : Prop :=
  s.write_ptr < N ∧ s.read_ptr < N ∧ (s.is_full = true → s.write_ptr = s.read_ptr)

theorem bounds_push (N : Nat) (hN : 0 < N) (s : RingBuffer T) (v : T)
    (hw : s.write_ptr < N) (hr : s.read_ptr < N) :
    (push N s v).1.write_ptr < N ∧ (push N s v).1.read_ptr < N := by
  obtain ⟨buf, w, r, f⟩ := s
  simp only [push]
  split_ifs <;> exact ⟨by first | exact hw | exact Nat.mod_lt _ hN, hr⟩

theorem bounds_push_unchecked (N : Nat) (hN : 0 < N) (s : RingBuffer T) (v : T)
    (hw : s.write_ptr < N) (hr : s.read_ptr < N) :
    (push_unchecked N s v).write_ptr < N ∧ (push_unchecked N s v).read_ptr < N := by
  obtain ⟨buf, w, r, f⟩ := s
  simp only [push_unchecked]
  split_ifs <;> exact ⟨Nat.mod_lt _ hN, hr⟩

theorem bounds_push_buffer (N : Nat) (hN : 0 < N) (s : RingBuffer T) (items : List T)
    (hw : s.write_ptr < N) (hr : s.read_ptr < N) :
    (push_buffer N s items).1.write_ptr < N ∧ (push_buffer N s items).1.read_ptr < N := by
  obtain ⟨buf, w, r, f⟩ := s
  simp only [push_buffer]
  split_ifs <;> exact ⟨by first | exact hw | exact Nat.mod_lt _ hN, hr⟩

theorem bounds_pop (N : Nat) [Inhabited T] (hN : 0 < N) (s : RingBuffer T)
    (hw : s.write_ptr < N) (hr : s.read_ptr < N) :
    (pop N s).1.write_ptr < N ∧ (pop N s).1.read_ptr < N := by
  obtain ⟨buf, w, r, f⟩ := s
  simp only [pop]
  split_ifs <;> exact ⟨hw, by first | exact hr | exact Nat.mod_lt _ hN⟩

theorem bounds_pop_unchecked (N : Nat) [Inhabited T] (hN : 0 < N) (s : RingBuffer T)
    (hw : s.write_ptr < N) (_hr : s.read_ptr < N) :
    (pop_unchecked N s).1.write_ptr < N ∧ (pop_unchecked N s).1.read_ptr < N :=
  ⟨hw, Nat.mod_lt _ hN⟩

theorem bounds_pop_buffer (N : Nat) (hN : 0 < N) (s : RingBuffer T) (len : Nat)
    (mem : List T) (hw : s.write_ptr < N) (hr : s.read_ptr < N) :
    (pop_buffer N s len mem).1.write_ptr < N ∧ (pop_buffer N s len mem).1.read_ptr < N := by
  obtain ⟨buf, w, r, f⟩ := s
  simp only [pop_buffer]
  split_ifs <;> exact ⟨hw, by first | exact hr | exact Nat.mod_lt _ hN⟩

theorem bounds_clear (N : Nat) (hN : 0 < N) (s : RingBuffer T) :
    (clearB s).write_ptr < N ∧ (clearB s).read_ptr < N :=
  ⟨hN, hN⟩

end RingBuf

namespace RingBuf

theorem inv_push (N : Nat) (hN : 0 < N) (s : RingBuffer T) (v : T) (h : Inv N s) :
    Inv N (push N s v).1 := by
  obtain ⟨buf, w, r, f⟩ := s
  obtain ⟨hw, hr, hf⟩ := h
  simp only at hw hr hf
  cases f
  · simp only [push, Bool.false_eq_true, if_false]
    split_ifs with heq
    · exact ⟨Nat.mod_lt _ hN, hr, fun _ => by simpa using heq⟩
    · exact ⟨Nat.mod_lt _ hN, hr, fun hc => Bool.noConfusion hc⟩
  · simp only [push, if_pos rfl]
    exact ⟨hw, hr, hf⟩

theorem inv_push_unchecked (N : Nat) (hN : 0 < N) (s : RingBuffer T) (v : T)
    (hful : s.is_full = false) (h : Inv N s) : Inv N (push_unchecked N s v) := by
  obtain ⟨buf, w, r, f⟩ := s
  obtain ⟨hw, hr, hf⟩ := h
  simp only at hw hr hf hful
  subst hful
  simp only [push_unchecked]
  split_ifs with heq
  · exact ⟨Nat.mod_lt _ hN, hr, fun _ => by simpa using heq⟩
  · exact ⟨Nat.mod_lt _ hN, hr, fun hc => Bool.noConfusion hc⟩
theorem inv_push_buffer (N : Nat) (hN : 0 < N) (s : RingBuffer T) (items : List T)
    (h : Inv N s) : Inv N (push_buffer N s items).1 := by
  obtain ⟨buf, w, r, f⟩ := s
  obtain ⟨hw, hr, hf⟩ := h
  simp only at hw hr hf
  by_cases hg : items.length > freeB N ⟨buf, w, r, f⟩
  · simp only [push_buffer, if_pos hg]
    exact ⟨hw, hr, hf⟩
  · simp only [push_buffer, if_neg hg]
    split_ifs with h1 h2 h3
    · exact ⟨Nat.mod_lt _ hN, hr, fun _ => by simpa using h1⟩
    · exact ⟨Nat.mod_lt _ hN, hr, fun _ => by simpa using h1⟩
    · refine ⟨Nat.mod_lt _ hN, hr, fun hc => ?_⟩
      -- the full flag survived: the buffer was already full, so the batch is empty
      have hwr := hf hc
      have hzero : items.length = 0 := by
        cases f
        · exact Bool.noConfusion hc
        · rw [show freeB N ⟨buf, w, r, true⟩ = 0 from rfl] at hg
          omega
      show (w + items.length) % N = r
      rw [hzero, Nat.add_zero, Nat.mod_eq_of_lt hw]
      exact hwr
    · refine ⟨Nat.mod_lt _ hN, hr, fun hc => ?_⟩
      have hwr := hf hc
      have hzero : items.length = 0 := by
        cases f
        · exact Bool.noConfusion hc
        · rw [show freeB N ⟨buf, w, r, true⟩ = 0 from rfl] at hg
          omega
      show (w + items.length) % N = r
      rw [hzero, Nat.add_zero, Nat.mod_eq_of_lt hw]
      exact hwr

theorem inv_pop (N : Nat) [Inhabited T] (hN : 0 < N) (s : RingBuffer T) (h : Inv N s) :
    Inv N (pop N s).1 := by
  obtain ⟨buf, w, r, f⟩ := s
  obtain ⟨hw, hr, hf⟩ := h
  simp only at hw hr hf
  simp only [pop]
  split_ifs
  · exact ⟨hw, hr, hf⟩
  · exact ⟨hw, Nat.mod_lt _ hN, fun hc => Bool.noConfusion hc⟩

theorem inv_pop_unchecked (N : Nat) [Inhabited T] (hN : 0 < N) (s : RingBuffer T)
    (h : Inv N s) : Inv N (pop_unchecked N s).1 := by
  obtain ⟨buf, w, r, f⟩ := s
  obtain ⟨hw, hr, hf⟩ := h
  simp only at hw hr hf
  exact ⟨hw, Nat.mod_lt _ hN, fun hc => Bool.noConfusion hc⟩

theorem inv_pop_buffer (N : Nat) (hN : 0 < N) (s : RingBuffer T) (len : Nat)
    (mem : List T) (h : Inv N s) : Inv N (pop_buffer N s len mem).1 := by
  obtain ⟨buf, w, r, f⟩ := s
  obtain ⟨hw, hr, hf⟩ := h
  simp only at hw hr hf
  simp only [pop_buffer]
  split_ifs
  · exact ⟨hw, hr, hf⟩
  · exact ⟨hw, Nat.mod_lt _ hN, fun hc => Bool.noConfusion hc⟩
  · exact ⟨hw, Nat.mod_lt _ hN, fun hc => Bool.noConfusion hc⟩

theorem inv_clear (N : Nat) (hN : 0 < N) (s : RingBuffer T) : Inv N (clearB s) :=
  ⟨hN, hN, fun hc => Bool.noConfusion hc⟩

end RingBuf

namespace RingBuf

/-- C6 counterexample: a capacity-2 buffer filled by two pushes and then hit by
`push_unchecked` is reachable through the public operations, has `is_full`
set, and yet its cursors differ — `is_full → write == read` fails. -/
theorem reachable_full_flag_counterexample :
    Reachable Nat 2 (push_unchecked 2 (push 2 (push 2 (initBuf Nat 2) 1).1 2).1 3) ∧
    fullB (push_unchecked 2 (push 2 (push 2 (initBuf Nat 2) 1).1 2).1 3) = true ∧
    (push_unchecked 2 (push 2 (push 2 (initBuf Nat 2) 1).1 2).1 3).write_ptr ≠
      (push_unchecked 2 (push 2 (push 2 (initBuf Nat 2) 1).1 2).1 3).read_ptr :=
  ⟨Reachable.push_unchecked 3 (Reachable.push 2 (Reachable.push 1 Reachable.init)),
   by decide, by decide⟩

/-- C6 (amended): both cursors stay in `[0, N)` in every state reachable
through the public operations, unchecked ones included; the implication
`is_full → write == read` additionally holds in every state reachable when
`push_unchecked` is only invoked on a non-full buffer (misusing it on a full
buffer is the documented foot-gun that breaks the flag, as the counterexample
shows). -/
theorem reachable_invariants {T : Type} [Inhabited T] (N : Nat) (hN : 0 < N) :
    (∀ s : RingBuffer T, Reachable T N s → s.write_ptr < N ∧ s.read_ptr < N) ∧
    (∀ s : RingBuffer T, ReachableSafe T N s →
      s.write_ptr < N ∧ s.read_ptr < N ∧ (s.is_full = true → s.write_ptr = s.read_ptr)) := by
  constructor
  · intro s h
    induction h with
    | init => exact ⟨hN, hN⟩
    | push v _ ih => exact bounds_push N hN _ v ih.1 ih.2
    | push_unchecked v _ ih => exact bounds_push_unchecked N hN _ v ih.1 ih.2
    | push_buffer items _ ih => exact bounds_push_buffer N hN _ items ih.1 ih.2
    | pop _ ih => exact bounds_pop N hN _ ih.1 ih.2
    | pop_unchecked _ ih => exact bounds_pop_unchecked N hN _ ih.1 ih.2
    | pop_buffer len mem _ ih => exact bounds_pop_buffer N hN _ len mem ih.1 ih.2
    | clear _ ih => exact bounds_clear N hN _
  · intro s h
    induction h with
    | init => exact ⟨hN, hN, fun hc => Bool.noConfusion hc⟩
    | push v _ ih => exact inv_push N hN _ v ih
    | push_unchecked v hful _ ih => exact inv_push_unchecked N hN _ v hful ih
    | push_buffer items _ ih => exact inv_push_buffer N hN _ items ih
    | pop _ ih => exact inv_pop N hN _ ih
    | pop_unchecked _ ih => exact inv_pop_unchecked N hN _ ih
    | pop_buffer len mem _ ih => exact inv_pop_buffer N hN _ len mem ih
    | clear _ ih => exact inv_clear N hN _

/-- C6 witness: instantiation at the fresh capacity-2 buffer. -/
theorem reachable_invariants_witness :
    (0 < 2) ∧
    ((initBuf Nat 2).write_ptr < 2 ∧ (initBuf Nat 2).read_ptr < 2) ∧
    ((initBuf Nat 2).is_full = true →
      (initBuf Nat 2).write_ptr = (initBuf Nat 2).read_ptr) :=
  ⟨by decide,
   (reachable_invariants 2 (by decide)).1 _ Reachable.init,
   ((reachable_invariants 2 (by decide)).2 _ ReachableSafe.init).2.2⟩

/-- C10: in every state reachable from a fresh buffer through the checked
operations and `clear`, `empty()` holds iff `size() = 0` and `full()` holds iff
`size() = capacity()`. -/
theorem checked_empty_full_iff_size {T : Type} [Inhabited T] (N : Nat) (hN : 0 < N)
    (s : RingBuffer T) (h : ReachableChecked T N s) :
    (emptyB s = true ↔ sizeB N s = 0) ∧
    (fullB s = true ↔ sizeB N s = capacityB N s) := by
  have hb : s.write_ptr < N ∧ s.read_ptr < N := by
    induction h with
    | init => exact ⟨hN, hN⟩
    | push v _ ih => exact bounds_push N hN _ v ih.1 ih.2
    | push_buffer items _ ih => exact bounds_push_buffer N hN _ items ih.1 ih.2
    | pop _ ih => exact bounds_pop N hN _ ih.1 ih.2
    | pop_buffer len mem _ ih => exact bounds_pop_buffer N hN _ len mem ih.1 ih.2
    | clear _ ih => exact bounds_clear N hN _
  obtain ⟨buf, w, r, f⟩ := s
  obtain ⟨hw, hr⟩ := hb
  simp only at hw hr
  cases f
  · simp only [emptyB, fullB, sizeB, capacityB, Bool.not_false, Bool.and_true,
      Bool.false_eq_true, if_false, beq_iff_eq]
    constructor
    · constructor
      · intro he
        rw [he]
        simp
      · intro hz
        split_ifs at hz <;> omega
    · constructor
      · intro hc
        exact hc.elim
      · intro hz
        exfalso
        split_ifs at hz <;> omega
  · have hsz : sizeB N ⟨buf, w, r, true⟩ = N := rfl
    have hemp : emptyB ⟨buf, w, r, true⟩ = false := by simp [emptyB]
    have hful : fullB ⟨buf, w, r, true⟩ = true := rfl
    rw [hsz, hemp, hful]
    constructor
    · constructor
      · intro hc
        exact Bool.noConfusion hc
      · intro hz
        exact absurd hz (by omega)
    · simp [capacityB]

/-- C10 witness: instantiation at the state after one checked push on a fresh
capacity-2 buffer. -/
theorem checked_empty_full_iff_size_witness :
    (0 < 2) ∧
    (emptyB (push 2 (initBuf Nat 2) 7).1 = true ↔ sizeB 2 (push 2 (initBuf Nat 2) 7).1 = 0) ∧
    (fullB (push 2 (initBuf Nat 2) 7).1 = true ↔
      sizeB 2 (push 2 (initBuf Nat 2) 7).1 = capacityB 2 (push 2 (initBuf Nat 2) 7).1) :=
  ⟨by decide,
   (checked_empty_full_iff_size 2 (by decide) _
     (ReachableChecked.push 7 ReachableChecked.init)).1,
   (checked_empty_full_iff_size 2 (by decide) _
     (ReachableChecked.push 7 ReachableChecked.init)).2⟩

end RingBuf

namespace RingBuf

/-- A single-element operation on the buffer: checked `push` of a value or a
checked `pop`. -/
inductive SOp (T : Type) where
  | push (v : T) : SOp T
  | pop : SOp T

/-- Run a sequence of checked single-element operations from a state,
aborting on the first error and collecting the popped values in order. -/
def runOps [Inhabited T] (N : Nat) : RingBuffer T → List (SOp T) → Option (RingBuffer T × List T)
  | s, [] => some (s, [])
  | s, SOp.push v :: ops =>
    if (push N s v).2 = none then runOps N (push N s v).1 ops else none
  | s, SOp.pop :: ops =>
    match (pop N s).2 with
    | Except.ok v => (runOps N (pop N s).1 ops).map (fun p => (p.1, v :: p.2))
    | Except.error _ => none

/-- The specification-side ideal bounded FIFO queue (written from the spec's
words, as the reference model for the refinement): a push appends to the back
and is legal only below capacity, a pop removes the front and is legal only
when non-empty; the run fails iff some operation is illegal. -/
def specFifoRun (cap : Nat) : List T → List (SOp T) → Option (List T × List T)
  | q, [] => some (q, [])
  | q, SOp.push v :: ops =>
    if q.length = cap then none else specFifoRun cap (q ++ [v]) ops
  | q, SOp.pop :: ops =>
    match q with
    | [] => none
    | x :: q2 => (specFifoRun cap q2 ops).map (fun p => (p.1, x :: p.2))

def countPush : List (SOp T) → Nat
  | [] => 0
  | SOp.push _ :: ops => countPush ops + 1
  | SOp.pop :: ops => countPush ops

def countPop : List (SOp T) → Nat
  | [] => 0
  | SOp.push _ :: ops => countPop ops
  | SOp.pop :: ops => countPop ops + 1

def pushedValues : List (SOp T) → List T
  | [] => []
  | SOp.push v :: ops => v :: pushedValues ops
  | SOp.pop :: ops => pushedValues ops

theorem specFifoRun_counts (cap : Nat) :
    ∀ (ops : List (SOp T)) (q qf outs : List T),
      specFifoRun cap q ops = some (qf, outs) →
      outs.length = countPop ops ∧
      qf.length + countPop ops = q.length + countPush ops := by
  intro ops
  induction ops with
  | nil =>
    intro q qf outs h
    simp only [specFifoRun, Option.some_inj] at h
    obtain ⟨h1, h2⟩ := Prod.mk.injEq .. ▸ h
    subst h1
    subst h2
    simp [countPush, countPop]
  | cons op ops ih =>
    cases op with
    | push v =>
      intro q qf outs h
      simp only [specFifoRun] at h
      split_ifs at h
      obtain ⟨h1, h2⟩ := ih (q ++ [v]) qf outs h
      simp only [countPush, countPop, List.length_append, List.length_singleton] at *
      omega
    | pop =>
      intro q qf outs h
      simp only [specFifoRun] at h
      cases q with
      | nil => exact absurd h (by simp)
      | cons x q2 =>
        rw [Option.map_eq_some'] at h
        obtain ⟨p, hp, hpe⟩ := h
        obtain ⟨hp1, hp2⟩ := Prod.mk.injEq .. ▸ hpe
        subst hp1
        subst hp2
        obtain ⟨h1, h2⟩ := ih q2 p.1 p.2 (by rw [hp])
        simp only [countPush, countPop, List.length_cons] at *
        omega

theorem specFifoRun_conservation (cap : Nat) :
    ∀ (ops : List (SOp T)) (q qf outs : List T),
      specFifoRun cap q ops = some (qf, outs) →
      outs ++ qf = q ++ pushedValues ops := by
  intro ops
  induction ops with
  | nil =>
    intro q qf outs h
    simp only [specFifoRun, Option.some_inj] at h
    obtain ⟨h1, h2⟩ := Prod.mk.injEq .. ▸ h
    subst h1
    subst h2
    simp [pushedValues]
  | cons op ops ih =>
    cases op with
    | push v =>
      intro q qf outs h
      simp only [specFifoRun] at h
      split_ifs at h
      have := ih (q ++ [v]) qf outs h
      simp only [pushedValues]
      rw [this]
      simp
    | pop =>
      intro q qf outs h
      simp only [specFifoRun] at h
      cases q with
      | nil => exact absurd h (by simp)
      | cons x q2 =>
        rw [Option.map_eq_some'] at h
        obtain ⟨p, hp, hpe⟩ := h
        obtain ⟨hp1, hp2⟩ := Prod.mk.injEq .. ▸ hpe
        subst hp1
        subst hp2
        have := ih q2 p.1 p.2 (by rw [hp])
        simp only [pushedValues]
        rw [List.cons_append, this]
        simp

end RingBuf

namespace RingBuf

/-- Abstraction relation: the implementation state `s` represents the abstract
queue `q` (front of `q` = oldest element, at `read_ptr`). -/
def Abs [Inhabited T] (N : Nat) (q : List T) (s : RingBuffer T) : Prop :=
  s.buffer.length = N ∧ s.write_ptr < N ∧ s.read_ptr < N ∧
  (s.is_full = true → s.write_ptr = s.read_ptr) ∧
  q.length = sizeB N s ∧
  (∀ i, i < q.length → s.buffer.getD ((s.read_ptr + i) % N) default = q.getD i default)

theorem sizeB_le (N : Nat) (s : RingBuffer T) (hw : s.write_ptr < N)
    (hr : s.read_ptr < N) : sizeB N s ≤ N := by
  obtain ⟨buf, w, r, f⟩ := s
  simp only at hw hr
  cases f
  · rw [sizeB_mk_false]
    split_ifs <;> omega
  · rw [show sizeB N ⟨buf, w, r, true⟩ = N from rfl]

theorem abs_write_formula [Inhabited T] {N : Nat} {q : List T} {s : RingBuffer T}
    (h : Abs N q s) : s.write_ptr = (s.read_ptr + sizeB N s) % N := by
  obtain ⟨buf, w, r, f⟩ := s
  obtain ⟨hlen, hw, hr, hf, hq, hcont⟩ := h
  simp only at hw hr hf ⊢
  cases f
  · rw [sizeB_mk_false]
    split_ifs with hord
    · rw [show r + (w - r) = w by omega, Nat.mod_eq_of_lt hw]
    · rw [show r + (w + (N - r)) = w + N by omega, Nat.add_mod_right,
        Nat.mod_eq_of_lt hw]
  · have hwr := hf rfl
    simp only at hwr
    rw [show sizeB N ⟨buf, w, r, true⟩ = N from rfl, hwr, Nat.add_mod_right,
      Nat.mod_eq_of_lt hr]

theorem abs_push_content [Inhabited T] (N : Nat) (q buf : List T) (w r : Nat) (v : T)
    (hlen : buf.length = N) (hw : w < N) (hr : r < N)
    (hwf : w = (r + q.length) % N) (hlt : q.length < N)
    (hcont : ∀ i, i < q.length → buf.getD ((r + i) % N) default = q.getD i default) :
    ∀ i, i < q.length + 1 →
      (buf.set w v).getD ((r + i) % N) default = (q ++ [v]).getD i default := by
  intro i hi
  by_cases hiz : i < q.length
  · have hne : (r + i) % N ≠ w := by
      rw [hwf, mod_split (show r + i < 2 * N by omega),
        mod_split (show r + q.length < 2 * N by omega)]
      split_ifs <;> omega
    have e1 : (buf.set w v).getD ((r + i) % N) default =
        buf.getD ((r + i) % N) default := by
      rw [List.getD_eq_getElem?_getD, List.getD_eq_getElem?_getD,
        List.getElem?_set_ne (Ne.symm hne)]
    have e2 : (q ++ [v]).getD i default = q.getD i default := by
      rw [List.getD_eq_getElem?_getD, List.getD_eq_getElem?_getD,
        List.getElem?_append_left hiz]
    rw [e1, e2]
    exact hcont i hiz
  · have hiz' : i = q.length := by omega
    subst hiz'
    rw [← hwf]
    have e1 : (buf.set w v).getD w default = v := by
      rw [List.getD_eq_getElem?_getD, List.getElem?_set_self (by omega)]
      rfl
    have e2 : (q ++ [v]).getD q.length default = v := by
      rw [List.getD_eq_getElem?_getD, List.getElem?_append_right (Nat.le_refl _)]
      simp
    rw [e1, e2]

theorem abs_push (N : Nat) [Inhabited T] (q : List T) (s : RingBuffer T) (v : T)
    (habs : Abs N q s) (hlt : q.length < N) :
    (push N s v).2 = none ∧ Abs N (q ++ [v]) (push N s v).1 := by
  have hwf0 := abs_write_formula habs
  obtain ⟨buf, w, r, f⟩ := s
  obtain ⟨hlen, hw, hr, hf, hq, hcont⟩ := habs
  simp only at hlen hw hr hf hq hcont hwf0
  rw [← hq] at hwf0
  have hnf : f = false := by
    cases f
    · rfl
    · exfalso
      rw [show sizeB N ⟨buf, w, r, true⟩ = N from rfl] at hq
      omega
  subst hnf
  rw [sizeB_mk_false] at hq
  have hfit : (if w ≥ r then w - r else w + (N - r)) + 1 ≤ N := by omega
  have hiff := advance_eq_read_iff N w r 1 hw hr (by omega) hfit
  simp only [push, Bool.false_eq_true, if_false]
  by_cases hful : (w + 1) % N = r
  · simp only [beq_iff_eq, if_pos hful]
    have hzN : (if w ≥ r then w - r else w + (N - r)) + 1 = N := hiff.mp hful
    refine ⟨by trivial, by simpa using hlen, Nat.mod_lt _ (by omega), hr,
      fun _ => hful, ?_, ?_⟩
    · rw [show sizeB N ⟨buf.set w v, (w + 1) % N, r, true⟩ = N from rfl]
      simp only [List.length_append, List.length_singleton]
      omega
    · intro i hi
      simp only [List.length_append, List.length_singleton] at hi
      exact abs_push_content N q buf w r v hlen hw hr hwf0 hlt hcont i hi
  · simp only [beq_iff_eq, if_neg hful]
    have hval := advance_size_val N w r 1 hw hr hfit hful
    refine ⟨by trivial, by simpa using hlen, Nat.mod_lt _ (by omega), hr,
      fun hc => Bool.noConfusion hc, ?_, ?_⟩
    · rw [sizeB_mk_false, hval]
      simp only [List.length_append, List.length_singleton]
      omega
    · intro i hi
      simp only [List.length_append, List.length_singleton] at hi
      exact abs_push_content N q buf w r v hlen hw hr hwf0 hlt hcont i hi

theorem abs_pop (N : Nat) [Inhabited T] (x : T) (q2 : List T) (s : RingBuffer T)
    (habs : Abs N (x :: q2) s) :
    (pop N s).2 = Except.ok x ∧ Abs N q2 (pop N s).1 := by
  have hwf0 := abs_write_formula habs
  obtain ⟨buf, w, r, f⟩ := s
  obtain ⟨hlen, hw, hr, hf, hq, hcont⟩ := habs
  simp only at hlen hw hr hf hq hcont hwf0
  rw [← hq] at hwf0
  simp only [List.length_cons] at hq
  have hzle : sizeB N ⟨buf, w, r, f⟩ ≤ N := sizeB_le N _ hw hr
  have hne : emptyB ⟨buf, w, r, f⟩ = false := by
    cases f
    · simp only [emptyB, Bool.not_false, Bool.and_true]
      by_cases hwr2 : w = r
      · exfalso
        rw [sizeB_mk_false, hwr2] at hq
        simp at hq
      · simp [hwr2]
    · simp [emptyB]
  have hval : buf.getD r default = x := by
    have := hcont 0 (by simp)
    simpa [Nat.mod_eq_of_lt hr] using this
  simp only [pop, hne, Bool.false_eq_true, if_false]
  refine ⟨by rw [hval], by simpa using hlen, hw, Nat.mod_lt _ (by omega),
    fun hc => Bool.noConfusion hc, ?_, ?_⟩
  · rw [sizeB_mk_false, hwf0, mod_split (show r + (x :: q2).length < 2 * N by
      simp only [List.length_cons]; omega),
      mod_split (show r + 1 < 2 * N by omega)]
    simp only [List.length_cons]
    split_ifs <;> omega
  · intro i hi
    have hstep : ((r + 1) % N + i) % N = (r + 1 + i) % N := Nat.mod_add_mod ..
    have h2 := hcont (i + 1) (by simp only [List.length_cons]; omega)
    rw [show r + (i + 1) = r + 1 + i by omega] at h2
    rw [hstep, h2]
    simp

end RingBuf

namespace RingBuf

theorem runOps_refines [Inhabited T] (N : Nat) :
    ∀ (ops : List (SOp T)) (q : List T) (s : RingBuffer T) (qf outs : List T),
      Abs N q s → specFifoRun N q ops = some (qf, outs) →
      ∃ sf, runOps N s ops = some (sf, outs) ∧ Abs N qf sf := by
  intro ops
  induction ops with
  | nil =>
    intro q s qf outs habs hrun
    simp only [specFifoRun, Option.some_inj] at hrun
    obtain ⟨h1, h2⟩ := Prod.mk.injEq .. ▸ hrun
    subst h1
    subst h2
    exact ⟨s, rfl, habs⟩
  | cons op ops ih =>
    cases op with
    | push v =>
      intro q s qf outs habs hrun
      simp only [specFifoRun] at hrun
      split_ifs at hrun with hcap
      have hle : q.length ≤ N := by
        rw [habs.2.2.2.2.1]
        exact sizeB_le N s habs.2.1 habs.2.2.1
      have hlt : q.length < N := by omega
      obtain ⟨hok, habs'⟩ := abs_push N q s v habs hlt
      obtain ⟨sf, hrunf, habsf⟩ := ih (q ++ [v]) (push N s v).1 qf outs habs' hrun
      refine ⟨sf, ?_, habsf⟩
      simp only [runOps, if_pos hok]
      exact hrunf
    | pop =>
      intro q s qf outs habs hrun
      simp only [specFifoRun] at hrun
      cases q with
      | nil => exact absurd hrun (by simp)
      | cons x q2 =>
        rw [Option.map_eq_some'] at hrun
        obtain ⟨p, hp, hpe⟩ := hrun
        obtain ⟨hp1, hp2⟩ := Prod.mk.injEq .. ▸ hpe
        subst hp1
        subst hp2
        obtain ⟨hok, habs'⟩ := abs_pop N x q2 s habs
        obtain ⟨sf, hrunf, habsf⟩ := ih q2 (pop N s).1 p.1 p.2 habs' (by rw [hp])
        refine ⟨sf, ?_, habsf⟩
        simp only [runOps]
        rw [hok, hrunf]
        rfl

/-- C4: for every sequence of single-element pushes and pops that is legal for
the ideal capacity-`N` FIFO queue (no push when it holds `N` elements, no pop
when empty), the run over the buffer succeeds, the popped values are exactly
the outputs of the ideal queue — the first `countPop` pushed values in push
order — and the final `size()` is the number of pushes minus the number of
pops. -/
theorem fifo_push_pop_sequences {T : Type} [Inhabited T] (N : Nat) (ops : List (SOp T))
    (qf outs : List T) (hN : 0 < N)
    (hspec : specFifoRun N [] ops = some (qf, outs)) :
    ∃ sf, runOps N (initBuf T N) ops = some (sf, outs) ∧
      sizeB N sf = countPush ops - countPop ops ∧
      outs = (pushedValues ops).take (countPop ops) := by
  have habs : Abs N [] (initBuf T N) := by
    refine ⟨by simp [initBuf], hN, hN, fun hc => Bool.noConfusion hc, rfl, ?_⟩
    intro i hi
    simp at hi
  obtain ⟨sf, hrun, habsf⟩ := runOps_refines N ops [] (initBuf T N) qf outs habs hspec
  obtain ⟨hoc, hqc⟩ := specFifoRun_counts N ops [] qf outs hspec
  have hcons := specFifoRun_conservation N ops [] qf outs hspec
  simp only [List.nil_append, List.length_nil] at hcons hqc
  refine ⟨sf, hrun, ?_, ?_⟩
  · have hsz : qf.length = sizeB N sf := habsf.2.2.2.2.1
    omega
  · rw [← hcons, ← hoc, List.take_left]

/-- C4 witness: a legal capacity-2 sequence of three pushes and three pops. -/
theorem fifo_push_pop_sequences_witness :
    (0 < 2 ∧
      specFifoRun 2 []
        [SOp.push 1, SOp.push 2, SOp.pop, SOp.push 3, SOp.pop, SOp.pop] =
        some ([], [1, 2, 3])) ∧
    ∃ sf, runOps 2 (initBuf Nat 2)
        [SOp.push 1, SOp.push 2, SOp.pop, SOp.push 3, SOp.pop, SOp.pop] =
        some (sf, [1, 2, 3]) ∧
      sizeB 2 sf =
        countPush [SOp.push 1, SOp.push 2, SOp.pop, SOp.push 3, SOp.pop, SOp.pop] -
          countPop [SOp.push 1, SOp.push 2, SOp.pop, SOp.push 3, SOp.pop, SOp.pop] ∧
      [1, 2, 3] =
        (pushedValues [SOp.push 1, SOp.push 2, SOp.pop, SOp.push 3, SOp.pop, SOp.pop]).take
          (countPop [SOp.push 1, SOp.push 2, SOp.pop, SOp.push 3, SOp.pop, SOp.pop]) :=
  ⟨⟨by decide, by decide⟩,
   fifo_push_pop_sequences 2
     [SOp.push 1, SOp.push 2, SOp.pop, SOp.push 3, SOp.pop, SOp.pop] [] [1, 2, 3]
     (by decide) (by decide)⟩

end RingBuf
